import Mathlib

/-!
Shallow embedding of `scripts/ref_text_.py`: a batch engine that walks a
catalog of audio-model entries, transcribes each pending entry's audio file
through a Whisper model, and persists the whole catalog after every
successful update.

The filesystem (`os.path.exists`) and the Whisper model
(`whisper_model.transcribe`) are modelled as a deterministic environment
`Env`.  JSON dictionaries are modelled by typed structures holding the
fields the script reads; a missing key is `none`.  Python truthiness of a
string field (`if not model.get('ref_text')`) is `none` or the empty
string.  In-place mutation of an entry dict (`model['ref_text'] = text`)
is modelled by updating the catalog at the entry's (group index, entry
index) position, and `save_models_json` (which flushes and fsyncs the full
file) is modelled as atomically replacing the on-disk catalog state with
the in-memory one.
-/

namespace RefTextBatch

/-- One entry of the catalog (`model` dict in the script): the script reads
the keys `name`, `file`, `language` and `ref_text`. -/
structure ModelEntry where
  name : Option String
  file : Option String
  language : Option String
  ref_text : Option String
deriving DecidableEq

/-- A group of the catalog: the script reads the nested list under
`modeles` when that key is present, otherwise under `models`. -/
structure Group where
  models : Option (List ModelEntry)
  modeles : Option (List ModelEntry)
deriving DecidableEq

/-- The root catalog object (`data` in the script), with the two synonymous
top-level keys. -/
structure Catalog where
  models : Option (List Group)
  modeles : Option (List Group)
deriving DecidableEq

/-- The whitespace class of Python's `str.strip()` (ASCII part). -/
def isPySpace (c : Char) : Bool :=
  c = ' ' || c = '\t' || c = '\n' || c = '\r' || c = '\x0b' || c = '\x0c'

/-- Python `str.strip()`: drop leading and trailing whitespace. -/
def pyStrip (s : String) : String :=
  String.mk (((s.toList.dropWhile isPySpace).reverse.dropWhile isPySpace).reverse)

/-- `leadsList pat l` is true when `pat` is an initial segment of `l`. -/
def leadsList : List Char → List Char → Bool
  | [], _ => true
  | _ :: _, [] => false
  | a :: as, b :: bs => (a == b) && leadsList as bs

/-- Substring test on character lists (Python `pat in s`). -/
def listContains (pat : List Char) : List Char → Bool
  | [] => pat.isEmpty
  | c :: cs => leadsList pat (c :: cs) || listContains pat cs

/-- Python `pat in s` on strings. -/
def strContains (s pat : String) : Bool :=
  listContains pat.toList s.toList

/-- Worker for `pyReplace`; the fuel argument starts at the length of the
scanned list, which bounds the number of recursion steps. -/
def replaceGo (pat rep : List Char) : Nat → List Char → List Char
  | 0, l => l
  | _ + 1, [] => []
  | fuel + 1, c :: cs =>
    if pat.length > 0 && leadsList pat (c :: cs)
    then rep ++ replaceGo pat rep fuel (List.drop (pat.length - 1) cs)
    else c :: replaceGo pat rep fuel cs

/-- Python `s.replace(old, new)`: replace every non-overlapping occurrence,
scanning left to right. -/
def pyReplace (s old new : String) : String :=
  String.mk (replaceGo old.toList new.toList s.toList.length s.toList)

/-- Does the path start with a separator (for `os.path.join` semantics)? -/
def startsSlash (p : String) : Bool :=
  match p.toList with
  | [] => false
  | c :: _ => c == '/'

/-- Does the path end with a separator? -/
def endsSlash (p : String) : Bool :=
  match p.toList.reverse with
  | [] => false
  | c :: _ => c == '/'

/-- POSIX `os.path.join(b, p)` for the shapes the script produces. -/
def pyJoin (b p : String) : String :=
  if startsSlash p then p
  else if b = "" then p
  else if endsSlash b then b ++ p
  else b ++ "/" ++ p

/-- Outcome of one call of the underlying Whisper model: a returned raw
transcript, a raised `Exception` (caught inside `transcribe_audio`), or a
raised `KeyboardInterrupt` (which propagates to `main`). -/
inductive WhisperOutcome where
  | ok (raw : String)
  | exc
  | interrupt
deriving DecidableEq

/-- The deterministic environment of a run: the repository base directory
(`BASE_DIR`), the filesystem (`os.path.exists`), and the Whisper model. -/
structure Env where
  base : String
  fileExists : String → Bool
  whisperTranscribe : String → Option String → WhisperOutcome

/-- The language option actually passed to the model: `transcribe_audio`
adds `options['language']` only when the hint is truthy. -/
def effLang : Option String → Option String
  | none => none
  | some l => if l = "" then none else some l

/-- Result of `transcribe_audio`: a Python return value (text or `None`),
or a propagating `KeyboardInterrupt`. -/
inductive TAResult where
  | ret (t : Option String)
  | interrupted
deriving DecidableEq

/-- `transcribe_audio` (lines 25-42): re-check existence, call the model,
strip the text; any `Exception` becomes `None`. -/
def transcribe_audio (env : Env) (file_path : String) (language : Option String) : TAResult :=
  if env.fileExists file_path then
    match env.whisperTranscribe file_path (effLang language) with
    | WhisperOutcome.ok raw => TAResult.ret (some (pyStrip raw))
    | WhisperOutcome.exc => TAResult.ret none
    | WhisperOutcome.interrupt => TAResult.interrupted
  else TAResult.ret none

/-- Truthiness of `model_entry.get('ref_text')` (line 51): present and
non-empty. -/
def refTruthy (e : ModelEntry) : Bool :=
  match e.ref_text with
  | none => false
  | some s => if s = "" then false else true

/-- Path resolution of `process_single_model` (lines 60-76): join with the
base dir; when that location is missing, substitute `models/` by
`modeles/` (or, failing the first containment test, the reverse) and use
the alternative only when it exists. -/
def resolve_audio_path (env : Env) (rel : String) : String :=
  let abs0 := pyJoin env.base rel
  if env.fileExists abs0 then abs0
  else if strContains rel "models/" then
    let altAbs := pyJoin env.base (pyReplace rel "models/" "modeles/")
    if env.fileExists altAbs then altAbs else abs0
  else if strContains rel "modeles/" then
    let altAbs := pyJoin env.base (pyReplace rel "modeles/" "models/")
    if env.fileExists altAbs then altAbs else abs0
  else abs0

/-- Result of `process_single_model`: the returned `(updated, text)` pair,
or a propagating `KeyboardInterrupt`. -/
inductive ProcResult where
  | ok (updated : Bool) (text : Option String)
  | interrupted
deriving DecidableEq

/-- `process_single_model` (lines 44-88). -/
def process_single_model (env : Env) (e : ModelEntry) : ProcResult :=
  if refTruthy e then ProcResult.ok false none
  else
    match e.file with
    | none => ProcResult.ok false none
    | some rel =>
      if rel = "" then ProcResult.ok false none
      else
        match transcribe_audio env (resolve_audio_path env rel) e.language with
        | TAResult.ret (some t) =>
          if t = "" then ProcResult.ok false none else ProcResult.ok true (some t)
        | TAResult.ret none => ProcResult.ok false none
        | TAResult.interrupted => ProcResult.interrupted

/-- The list of groups `main` walks (lines 110-115): the value under
`modeles` when that key is present, otherwise the value under `models`. -/
def selGroups (c : Catalog) : List Group :=
  match c.modeles with
  | some L => L
  | none => c.models.getD []

/-- The entry list walked inside one group (lines 116-121), with the same
key precedence. -/
def selEntries (g : Group) : List ModelEntry :=
  match g.modeles with
  | some M => M
  | none => g.models.getD []

/-- The worklist `tasks` of `main` (lines 107-124): pending entries of the
selected keys, in document order. -/
def tasksOf (c : Catalog) : List ModelEntry :=
  (selGroups c).bind (fun g => (selEntries g).filter (fun e => !refTruthy e))

/-- Every entry of the catalog, under both spellings at both levels. -/
def allEntries (c : Catalog) : List ModelEntry :=
  (c.models.getD [] ++ c.modeles.getD []).bind
    (fun g => g.models.getD [] ++ g.modeles.getD [])

/-- An entry reachable under either top-level spelling and either nested
spelling (the spec's notion of an entry being in the catalog). -/
def reachableEither (c : Catalog) (e : ModelEntry) : Prop :=
  ∃ L g M, (c.models = some L ∨ c.modeles = some L) ∧ g ∈ L ∧
    (g.models = some M ∨ g.modeles = some M) ∧ e ∈ M

/-- Position of an entry in the selected view of the catalog:
(group index, entry index).  The Python worklist holds references into
`data`; positions model that aliasing. -/
abbrev Pos := Nat × Nat

/-- Look up the entry at a position of the selected view. -/
def entryAt (c : Catalog) (p : Pos) : Option ModelEntry :=
  ((selGroups c).get? p.1).bind (fun g => (selEntries g).get? p.2)

/-- Apply `f` to the element at index `n`, if any. -/
def listModify {α : Type} : List α → Nat → (α → α) → List α
  | [], _, _ => []
  | x :: xs, 0, f => f x :: xs
  | x :: xs, n + 1, f => x :: listModify xs n f

/-- Write the group list back under the selected top-level key. -/
def Catalog.setGroups (c : Catalog) (L : List Group) : Catalog :=
  match c.modeles with
  | some _ => { c with modeles := some L }
  | none => { c with models := some L }

/-- Write the entry list back under the selected nested key. -/
def Group.setEntries (g : Group) (M : List ModelEntry) : Group :=
  match g.modeles with
  | some _ => { g with modeles := some M }
  | none => { g with models := some M }

/-- `model['ref_text'] = text` (line 140): the in-place dict mutation seen
through the catalog. -/
def updateAt (c : Catalog) (p : Pos) (t : String) : Catalog :=
  Catalog.setGroups c (listModify (selGroups c) p.1 (fun g =>
    Group.setEntries g (listModify (selEntries g) p.2
      (fun e => { e with ref_text := some t }))))

/-- Indices of the pending entries of a list, in document order. -/
def pendingIdx : List ModelEntry → List Nat
  | [] => []
  | e :: es =>
    if refTruthy e then (pendingIdx es).map (fun i => i + 1)
    else 0 :: (pendingIdx es).map (fun i => i + 1)

/-- Positions of the pending entries of a group list, in document order. -/
def taskPositions : List Group → List Pos
  | [] => []
  | g :: gs =>
    (pendingIdx (selEntries g)).map (fun ei => ((0 : Nat), ei)) ++
      (taskPositions gs).map (fun q => (q.1 + 1, q.2))

/-- The worklist of `main` as positions into the catalog. -/
def worklistPositions (c : Catalog) : List Pos :=
  taskPositions (selGroups c)

/-- What one loop iteration of `main` (lines 135-155) does with its task. -/
inductive StepResult where
  | committed (t : String)
  | skipped
  | interrupted
deriving DecidableEq

/-- `process_single_model` applied to the aliased entry at a worklist
position of the current in-memory catalog. -/
def processTask (env : Env) (c : Catalog) (p : Pos) : ProcResult :=
  match entryAt c p with
  | some e => process_single_model env e
  | none => ProcResult.ok false none

/-- The `if updated and text:` test of line 139 on the processing result. -/
def stepOf (env : Env) (c : Catalog) (p : Pos) : StepResult :=
  match processTask env c p with
  | ProcResult.ok true (some t) =>
    if t = "" then StepResult.skipped else StepResult.committed t
  | ProcResult.ok true none => StepResult.skipped
  | ProcResult.ok false _ => StepResult.skipped
  | ProcResult.interrupted => StepResult.interrupted

/-- Record of one loop iteration: its position, what happened, and the
in-memory and on-disk catalog right after it. -/
structure IterRecord where
  pos : Pos
  res : StepResult
  memBefore : Catalog
  memAfter : Catalog
  diskAfter : Catalog
deriving DecidableEq

/-- Outcome of a run: iteration trace, final in-memory catalog, final
on-disk catalog, and whether a `KeyboardInterrupt` ended the walk. -/
structure RunResult where
  trace : List IterRecord
  mem : Catalog
  disk : Catalog
  interrupted : Bool
deriving DecidableEq

/-- The worklist loop of `main` (lines 135-155).  A commit stores the text
in memory and then saves the whole catalog (`save_models_json`, which
flushes and fsyncs before returning, modelled as `disk := mem`).  A
`KeyboardInterrupt` performs one final save of the current state and
returns; `except Exception` (line 154) logs and falls through to the next
task, which is the `skipped` branch. -/
def loop (env : Env) : List Pos → Catalog → Catalog → RunResult
  | [], mem, disk => ⟨[], mem, disk, false⟩
  | p :: ps, mem, disk =>
    match stepOf env mem p with
    | StepResult.committed t =>
      let mem2 := updateAt mem p t
      let r := loop env ps mem2 mem2
      ⟨⟨p, StepResult.committed t, mem, mem2, mem2⟩ :: r.trace, r.mem, r.disk, r.interrupted⟩
    | StepResult.skipped =>
      let r := loop env ps mem disk
      ⟨⟨p, StepResult.skipped, mem, mem, disk⟩ :: r.trace, r.mem, r.disk, r.interrupted⟩
    | StepResult.interrupted =>
      ⟨[⟨p, StepResult.interrupted, mem, mem, mem⟩], mem, mem, true⟩

/-- One run of the engine after a successful load and model init: build the
worklist from the loaded catalog (which is also the on-disk state) and walk
it.  The `total_tasks == 0` early return of line 129 coincides with the
loop on the empty worklist. -/
def run (env : Env) (c : Catalog) : RunResult :=
  loop env (worklistPositions c) c c

/-- The sequence of catalog states written to disk by a run, in order. -/
def savesOf (r : RunResult) : List Catalog :=
  r.trace.filterMap (fun rec =>
    match rec.res with
    | StepResult.skipped => none
    | _ => some rec.diskAfter)

/-- Is a step a durable commit? -/
def isCommit : StepResult → Bool
  | StepResult.committed _ => true
  | _ => false

/-- How often a run's trace commits (writes `ref_text`) at one position. -/
def commitCount (tr : List IterRecord) (p : Pos) : Nat :=
  tr.countP (fun r => isCommit r.res && decide (r.pos = p))

/-- Erase the `ref_text` field of an entry (for frame statements). -/
def eraseRefE (e : ModelEntry) : ModelEntry :=
  { name := e.name, file := e.file, language := e.language, ref_text := none }

/-- Erase every `ref_text` inside a group. -/
def eraseRefG (g : Group) : Group :=
  { models := g.models.map (fun M => M.map eraseRefE),
    modeles := g.modeles.map (fun M => M.map eraseRefE) }

/-- Erase every `ref_text` inside a catalog. -/
def eraseRefC (c : Catalog) : Catalog :=
  { models := c.models.map (fun L => L.map eraseRefG),
    modeles := c.modeles.map (fun L => L.map eraseRefG) }

/-- Test environment: one audio file, a model that returns `" hola "`. -/
def c1env : Env :=
  ⟨"/repo", fun p => decide (p = "/repo/models/a.wav"),
    fun _ _ => WhisperOutcome.ok " hola "⟩

/-- Test entry pending transcription. -/
def c1ent : ModelEntry := ⟨some "a", some "models/a.wav", none, none⟩

/-- Test catalog with the single pending entry `c1ent`. -/
def c1cat : Catalog := ⟨some [⟨some [c1ent], none⟩], none⟩

/-- Pending entry stored under the `models` spelling. -/
def c2entA : ModelEntry := ⟨some "alpha", some "models/a.wav", none, none⟩

/-- Pending entry stored under the `modeles` spelling. -/
def c2entB : ModelEntry := ⟨some "beta", some "models/b.wav", none, none⟩

/-- Group holding `c2entA` under its `models` key. -/
def c2grpA : Group := ⟨some [c2entA], none⟩

/-- Group holding `c2entB` under its `models` key. -/
def c2grpB : Group := ⟨some [c2entB], none⟩

/-- Catalog with BOTH top-level keys present: `models` holds `c2grpA`,
`modeles` holds `c2grpB`. -/
def c2both : Catalog := ⟨some [c2grpA], some [c2grpB]⟩

/-- Catalog with only the `models` spelling present. -/
def c2only : Catalog := ⟨some [c2grpA], none⟩

/-- Environment for the no-op run (nothing exists, model always fails). -/
def c3env : Env := ⟨"/repo", fun _ => false, fun _ _ => WhisperOutcome.exc⟩

/-- Fully satisfied catalog: its only entry already has a `ref_text`. -/
def c3cat : Catalog :=
  ⟨some [⟨some [⟨some "d", some "models/d.wav", none, some "done"⟩], none⟩], none⟩

/-- Entry whose declared file exists nowhere (under either token). -/
def c4bad : ModelEntry := ⟨some "bad", some "models/bad.wav", none, none⟩

/-- Entry whose declared file exists and transcribes. -/
def c4good : ModelEntry := ⟨some "good", some "models/good.wav", some "es", none⟩

/-- Environment where only `c4good`'s audio exists and transcribes. -/
def c4env : Env :=
  ⟨"/repo", fun p => decide (p = "/repo/models/good.wav"),
    fun p _ => if p = "/repo/models/good.wav" then WhisperOutcome.ok " hello "
      else WhisperOutcome.exc⟩

/-- Catalog with the failing entry first and the valid entry second. -/
def c4cat : Catalog := ⟨some [⟨some [c4bad, c4good], none⟩], none⟩

/-- Environment whose transcription call raises `KeyboardInterrupt`. -/
def c5env : Env := ⟨"/repo", fun _ => true, fun _ _ => WhisperOutcome.interrupt⟩

/-- Catalog with one pending entry, to be interrupted mid-processing. -/
def c5cat : Catalog :=
  ⟨some [⟨some [⟨some "i", some "models/i.wav", none, none⟩], none⟩], none⟩

/-- Environment whose model returns whitespace-only output. -/
def c6env : Env := ⟨"/repo", fun _ => true, fun _ _ => WhisperOutcome.ok "  \t "⟩

/-- Pending entry fed to the whitespace-only transcription. -/
def c6ent : ModelEntry := ⟨some "w", some "models/w.wav", none, none⟩

/-- Environment where only the `modeles/` spelling of the asset exists. -/
def c7env : Env :=
  ⟨"/repo", fun p => decide (p = "/repo/modeles/x.wav"), fun _ _ => WhisperOutcome.exc⟩

/-- Environment for the frame test: the one asset exists and transcribes. -/
def c8env : Env :=
  ⟨"/repo", fun p => decide (p = "/repo/models/c8.wav"),
    fun _ _ => WhisperOutcome.ok "tc8"⟩

/-- Pending entry of the frame test. -/
def c8ent : ModelEntry := ⟨some "n8", some "models/c8.wav", none, none⟩

/-- Catalog of the frame test. -/
def c8cat : Catalog := ⟨some [⟨some [c8ent], none⟩], none⟩

/-- `c8ent` after its transcription committed. -/
def c8entDone : ModelEntry := ⟨some "n8", some "models/c8.wav", none, some "tc8"⟩

/-- Pending entry under the ignored top-level `models` key. -/
def c9entA : ModelEntry := ⟨some "na", some "models/na.wav", none, none⟩

/-- Pending entry under the winning `modeles` keys. -/
def c9entB : ModelEntry := ⟨some "nb", some "models/nb.wav", none, none⟩

/-- Pending entry under the ignored nested `models` key of a group that
also has a `modeles` key. -/
def c9entC : ModelEntry := ⟨some "nc", some "models/nc.wav", none, none⟩

/-- Group reachable only from the top-level `models` key. -/
def c9grpTop : Group := ⟨some [c9entA], none⟩

/-- Group with both nested keys: `models` holds `c9entC`, `modeles` holds
`c9entB`. -/
def c9grpBoth : Group := ⟨some [c9entC], some [c9entB]⟩

/-- Catalog with both top-level keys present. -/
def c9cat : Catalog := ⟨some [c9grpTop], some [c9grpBoth]⟩

/-- Environment where only `modeles/modeles/a.wav` (both occurrences
substituted) exists. -/
def c10env : Env :=
  ⟨"/repo", fun p => decide (p = "/repo/modeles/modeles/a.wav"),
    fun _ _ => WhisperOutcome.exc⟩

theorem listModify_get_eq {α : Type} (l : List α) (i : Nat) (f : α → α) :
    (listModify l i f).get? i = (l.get? i).map f := by
  induction l generalizing i with
  | nil => simp [listModify]
  | cons x xs ih =>
    cases i with
    | zero => simp [listModify]
    | succ n => simpa [listModify] using ih n

theorem listModify_get_ne {α : Type} (l : List α) (i j : Nat) (f : α → α) (h : j ≠ i) :
    (listModify l i f).get? j = l.get? j := by
  induction l generalizing i j with
  | nil => simp [listModify]
  | cons x xs ih =>
    cases i with
    | zero =>
      cases j with
      | zero => exact absurd rfl h
      | succ m => simp [listModify]
    | succ n =>
      cases j with
      | zero => simp [listModify]
      | succ m =>
        have : m ≠ n := fun hmn => h (by rw [hmn])
        simpa [listModify] using ih n m this

theorem listModify_map_congr {α β : Type} (l : List α) (i : Nat) (f : α → α) (h : α → β)
    (hfa : ∀ a, l.get? i = some a → h (f a) = h a) :
    (listModify l i f).map h = l.map h := by
  induction l generalizing i with
  | nil => rfl
  | cons x xs ih =>
    cases i with
    | zero =>
      have hx : h (f x) = h x := hfa x rfl
      simp [listModify, hx]
    | succ n =>
      have : ∀ a, xs.get? n = some a → h (f a) = h a := fun a ha => hfa a (by simpa using ha)
      simp [listModify, ih n this]

theorem selGroups_setGroups (c : Catalog) (L : List Group) :
    selGroups (c.setGroups L) = L := by
  obtain ⟨cm, cmd⟩ := c
  cases cmd <;> rfl

theorem selEntries_setEntries (g : Group) (M : List ModelEntry) :
    selEntries (g.setEntries M) = M := by
  obtain ⟨gm, gmd⟩ := g
  cases gmd <;> rfl

theorem entryAt_updateAt_eq (c : Catalog) (p : Pos) (t : String) (e : ModelEntry)
    (h : entryAt c p = some e) :
    entryAt (updateAt c p t) p = some { e with ref_text := some t } := by
  unfold entryAt at h
  cases hg : (selGroups c).get? p.1 with
  | none => rw [hg] at h; simp at h
  | some g =>
    rw [hg] at h
    rw [Option.some_bind] at h
    unfold entryAt updateAt
    rw [selGroups_setGroups, listModify_get_eq, hg, Option.map_some', Option.some_bind,
      selEntries_setEntries, listModify_get_eq, h, Option.map_some']

theorem entryAt_updateAt_ne (c : Catalog) (q p : Pos) (t : String) (h : p ≠ q) :
    entryAt (updateAt c q t) p = entryAt c p := by
  unfold entryAt updateAt
  rw [selGroups_setGroups]
  by_cases h1 : p.1 = q.1
  · have h2 : p.2 ≠ q.2 := fun h2 => h (Prod.ext_iff.mpr ⟨h1, h2⟩)
    rw [h1, listModify_get_eq]
    cases hg : (selGroups c).get? q.1 with
    | none => rfl
    | some g =>
      rw [Option.map_some', Option.some_bind, Option.some_bind,
        selEntries_setEntries, listModify_get_ne _ _ _ _ h2]
  · rw [listModify_get_ne _ _ _ _ h1]

theorem eraseRefG_setEntries (g : Group) (i : Nat) (t : String) (e : ModelEntry)
    (h : (selEntries g).get? i = some e) :
    eraseRefG (g.setEntries (listModify (selEntries g) i
      (fun x => { x with ref_text := some t }))) = eraseRefG g := by
  obtain ⟨gm, gmd⟩ := g
  cases gmd with
  | some M =>
    simp only [Group.setEntries, selEntries, eraseRefG, Option.map_some']
    rw [listModify_map_congr]
    intro a _
    rfl
  | none =>
    cases gm with
    | some M =>
      simp only [Group.setEntries, selEntries, eraseRefG, Option.map_some', Option.getD]
      rw [listModify_map_congr]
      intro a _
      rfl
    | none => simp [selEntries] at h

theorem eraseRefC_updateAt (c : Catalog) (p : Pos) (t : String) (e : ModelEntry)
    (h : entryAt c p = some e) :
    eraseRefC (updateAt c p t) = eraseRefC c := by
  unfold entryAt at h
  cases hg : (selGroups c).get? p.1 with
  | none => rw [hg] at h; simp at h
  | some g =>
    rw [hg, Option.some_bind] at h
    have hgmap : ∀ a, (selGroups c).get? p.1 = some a →
        eraseRefG (a.setEntries (listModify (selEntries a) p.2
          (fun x => { x with ref_text := some t }))) = eraseRefG a := by
      intro a ha
      rw [hg] at ha
      cases ha
      exact eraseRefG_setEntries g p.2 t e h
    obtain ⟨cm, cmd⟩ := c
    cases cmd with
    | some L =>
      simp only [updateAt, Catalog.setGroups, eraseRefC, Option.map_some']
      rw [show selGroups ⟨cm, some L⟩ = L from rfl] at hgmap ⊢
      rw [listModify_map_congr _ _ _ _ hgmap]
    | none =>
      cases cm with
      | some L =>
        simp only [updateAt, Catalog.setGroups, eraseRefC, Option.map_some', Option.map_none']
        rw [show selGroups ⟨some L, none⟩ = L from rfl] at hgmap ⊢
        rw [listModify_map_congr _ _ _ _ hgmap]
      | none => simp [selGroups] at hg

theorem selGroups_eraseRefC (c : Catalog) :
    selGroups (eraseRefC c) = (selGroups c).map eraseRefG := by
  obtain ⟨cm, cmd⟩ := c
  cases cmd with
  | some L => rfl
  | none => cases cm <;> rfl

theorem selEntries_eraseRefG (g : Group) :
    selEntries (eraseRefG g) = (selEntries g).map eraseRefE := by
  obtain ⟨gm, gmd⟩ := g
  cases gmd with
  | some M => rfl
  | none => cases gm <;> rfl

theorem entryAt_eraseRefC (c : Catalog) (p : Pos) :
    entryAt (eraseRefC c) p = (entryAt c p).map eraseRefE := by
  unfold entryAt
  rw [selGroups_eraseRefC, List.get?_map]
  cases (selGroups c).get? p.1 with
  | none => rfl
  | some g =>
    rw [Option.map_some', Option.some_bind, Option.some_bind,
      selEntries_eraseRefG, List.get?_map]

theorem stepOf_committed (env : Env) (c : Catalog) (p : Pos) (t : String)
    (h : stepOf env c p = StepResult.committed t) :
    t ≠ "" ∧ ∃ e, entryAt c p = some e := by
  unfold stepOf processTask at h
  cases he : entryAt c p with
  | none => simp only [he] at h; simp at h
  | some e =>
    refine ⟨?_, e, rfl⟩
    simp only [he] at h
    cases hp : process_single_model env e with
    | interrupted => simp only [hp] at h; simp at h
    | ok b txt =>
      simp only [hp] at h
      cases b with
      | false => simp at h
      | true =>
        cases txt with
        | none => simp at h
        | some t2 =>
          by_cases ht : t2 = ""
          · simp [ht] at h
          · simp only [if_neg ht] at h
            cases h
            exact ht

theorem loop_nil (env : Env) (mem disk : Catalog) :
    loop env [] mem disk = ⟨[], mem, disk, false⟩ := rfl

theorem loop_cons_committed (env : Env) (p : Pos) (ps : List Pos) (mem disk : Catalog)
    (t : String) (h : stepOf env mem p = StepResult.committed t) :
    loop env (p :: ps) mem disk =
      ⟨⟨p, StepResult.committed t, mem, updateAt mem p t, updateAt mem p t⟩ ::
        (loop env ps (updateAt mem p t) (updateAt mem p t)).trace,
        (loop env ps (updateAt mem p t) (updateAt mem p t)).mem,
        (loop env ps (updateAt mem p t) (updateAt mem p t)).disk,
        (loop env ps (updateAt mem p t) (updateAt mem p t)).interrupted⟩ := by
  simp only [loop, h]

theorem loop_cons_skipped (env : Env) (p : Pos) (ps : List Pos) (mem disk : Catalog)
    (h : stepOf env mem p = StepResult.skipped) :
    loop env (p :: ps) mem disk =
      ⟨⟨p, StepResult.skipped, mem, mem, disk⟩ :: (loop env ps mem disk).trace,
        (loop env ps mem disk).mem, (loop env ps mem disk).disk,
        (loop env ps mem disk).interrupted⟩ := by
  simp only [loop, h]

theorem loop_cons_interrupted (env : Env) (p : Pos) (ps : List Pos) (mem disk : Catalog)
    (h : stepOf env mem p = StepResult.interrupted) :
    loop env (p :: ps) mem disk =
      ⟨[⟨p, StepResult.interrupted, mem, mem, mem⟩], mem, mem, true⟩ := by
  simp only [loop, h]

theorem loop_frozen (env : Env) (p : Pos) :
    ∀ (ps : List Pos) (mem disk : Catalog), p ∉ ps →
      entryAt (loop env ps mem disk).mem p = entryAt mem p := by
  intro ps
  induction ps with
  | nil => intro mem disk _; rfl
  | cons q ps ih =>
    intro mem disk hnp
    have hq : q ≠ p := fun h => hnp (h ▸ List.mem_cons_self q ps)
    have hps : p ∉ ps := fun h => hnp (List.mem_cons_of_mem _ h)
    cases hstep : stepOf env mem q with
    | committed t =>
      rw [loop_cons_committed env q ps mem disk t hstep]
      rw [ih _ _ hps, entryAt_updateAt_ne mem q p t (Ne.symm hq)]
    | skipped =>
      rw [loop_cons_skipped env q ps mem disk hstep]
      exact ih _ _ hps
    | interrupted =>
      rw [loop_cons_interrupted env q ps mem disk hstep]

theorem loop_eraseRef (env : Env) :
    ∀ (ps : List Pos) (mem disk : Catalog),
      eraseRefC (loop env ps mem disk).mem = eraseRefC mem := by
  intro ps
  induction ps with
  | nil => intro mem disk; rfl
  | cons p ps ih =>
    intro mem disk
    cases hstep : stepOf env mem p with
    | committed t =>
      obtain ⟨-, e, he⟩ := stepOf_committed env mem p t hstep
      rw [loop_cons_committed env p ps mem disk t hstep]
      rw [ih _ _, eraseRefC_updateAt mem p t e he]
    | skipped =>
      rw [loop_cons_skipped env p ps mem disk hstep]
      exact ih _ _
    | interrupted =>
      rw [loop_cons_interrupted env p ps mem disk hstep]

theorem loop_commit_save (env : Env) :
    ∀ (ps : List Pos) (mem disk : Catalog) (r : IterRecord) (t : String),
      r ∈ (loop env ps mem disk).trace → r.res = StepResult.committed t →
      r.diskAfter = r.memAfter ∧ r.memAfter = updateAt r.memBefore r.pos t := by
  intro ps
  induction ps with
  | nil => intro mem disk r t hr _; simp [loop] at hr
  | cons p ps ih =>
    intro mem disk r t hr hres
    cases hstep : stepOf env mem p with
    | committed t2 =>
      rw [loop_cons_committed env p ps mem disk t2 hstep] at hr
      rcases List.mem_cons.mp hr with hr | hr
      · subst hr
        simp only at hres
        cases hres
        exact ⟨rfl, rfl⟩
      · exact ih _ _ _ _ hr hres
    | skipped =>
      rw [loop_cons_skipped env p ps mem disk hstep] at hr
      rcases List.mem_cons.mp hr with hr | hr
      · subst hr; simp at hres
      · exact ih _ _ _ _ hr hres
    | interrupted =>
      rw [loop_cons_interrupted env p ps mem disk hstep] at hr
      rcases List.mem_cons.mp hr with hr | hr
      · subst hr; simp at hres
      · simp at hr

theorem loop_commitCount_notMem (env : Env) (p : Pos) :
    ∀ (ps : List Pos) (mem disk : Catalog), p ∉ ps →
      commitCount (loop env ps mem disk).trace p = 0 := by
  intro ps
  induction ps with
  | nil => intro mem disk _; rfl
  | cons q ps ih =>
    intro mem disk hnp
    have hq : q ≠ p := fun h => hnp (h ▸ List.mem_cons_self q ps)
    have hps : p ∉ ps := fun h => hnp (List.mem_cons_of_mem _ h)
    cases hstep : stepOf env mem q with
    | committed t =>
      rw [loop_cons_committed env q ps mem disk t hstep]
      simp only [commitCount, List.countP_cons] at ih ⊢
      rw [ih _ _ hps]
      simp [isCommit, decide_eq_false hq]
    | skipped =>
      rw [loop_cons_skipped env q ps mem disk hstep]
      simp only [commitCount, List.countP_cons] at ih ⊢
      rw [ih _ _ hps]
      simp [isCommit]
    | interrupted =>
      rw [loop_cons_interrupted env q ps mem disk hstep]
      simp [commitCount, isCommit]

theorem loop_commitCount_le_one (env : Env) (p : Pos) :
    ∀ (ps : List Pos) (mem disk : Catalog), ps.Nodup →
      commitCount (loop env ps mem disk).trace p ≤ 1 := by
  intro ps
  induction ps with
  | nil => intro mem disk _; exact Nat.zero_le 1
  | cons q ps ih =>
    intro mem disk hnd
    obtain ⟨hqps, hnd'⟩ := List.nodup_cons.mp hnd
    cases hstep : stepOf env mem q with
    | committed t =>
      rw [loop_cons_committed env q ps mem disk t hstep]
      simp only [commitCount, List.countP_cons] at ih ⊢
      by_cases hq : q = p
      · subst hq
        have h0 := loop_commitCount_notMem env q ps (updateAt mem q t) (updateAt mem q t) hqps
        simp only [commitCount] at h0
        rw [h0]
        simp [isCommit]
      · rw [show (decide (q = p)) = false from decide_eq_false hq]
        simpa [isCommit] using ih (updateAt mem q t) (updateAt mem q t) hnd'
    | skipped =>
      rw [loop_cons_skipped env q ps mem disk hstep]
      simp only [commitCount, List.countP_cons] at ih ⊢
      simpa [isCommit] using ih mem disk hnd'
    | interrupted =>
      rw [loop_cons_interrupted env q ps mem disk hstep]
      simp [commitCount, isCommit]

theorem mem_pendingIdx (es : List ModelEntry) (i : Nat) (h : i ∈ pendingIdx es) :
    ∃ e, es.get? i = some e ∧ refTruthy e = false := by
  induction es generalizing i with
  | nil => simp [pendingIdx] at h
  | cons e es ih =>
    by_cases he : refTruthy e
    · simp only [pendingIdx, he, if_pos] at h
      obtain ⟨j, hj, rfl⟩ := List.mem_map.mp h
      obtain ⟨e2, h1, h2⟩ := ih j hj
      exact ⟨e2, by simpa using h1, h2⟩
    · simp only [pendingIdx, he, if_neg, Bool.false_eq_true, not_false_iff] at h
      rcases List.mem_cons.mp h with rfl | h
      · exact ⟨e, rfl, by simpa using he⟩
      · obtain ⟨j, hj, rfl⟩ := List.mem_map.mp h
        obtain ⟨e2, h1, h2⟩ := ih j hj
        exact ⟨e2, by simpa using h1, h2⟩

theorem mem_taskPositions (gs : List Group) (p : Pos) (h : p ∈ taskPositions gs) :
    ∃ g e, gs.get? p.1 = some g ∧ (selEntries g).get? p.2 = some e ∧
      refTruthy e = false := by
  induction gs generalizing p with
  | nil => simp [taskPositions] at h
  | cons g gs ih =>
    rcases List.mem_append.mp h with h | h
    · obtain ⟨ei, hei, rfl⟩ := List.mem_map.mp h
      obtain ⟨e, h1, h2⟩ := mem_pendingIdx _ _ hei
      exact ⟨g, e, rfl, h1, h2⟩
    · obtain ⟨q, hq, rfl⟩ := List.mem_map.mp h
      obtain ⟨g2, e, h1, h2, h3⟩ := ih q hq
      exact ⟨g2, e, by simpa using h1, h2, h3⟩

theorem worklist_pending (c : Catalog) (p : Pos) (h : p ∈ worklistPositions c) :
    ∃ e, entryAt c p = some e ∧ refTruthy e = false := by
  obtain ⟨g, e, h1, h2, h3⟩ := mem_taskPositions _ _ h
  refine ⟨e, ?_, h3⟩
  unfold entryAt
  rw [h1, Option.some_bind, h2]

theorem pendingIdx_eq_nil (es : List ModelEntry) (h : ∀ e ∈ es, refTruthy e = true) :
    pendingIdx es = [] := by
  induction es with
  | nil => rfl
  | cons e es ih =>
    have he : refTruthy e = true := h e (List.mem_cons_self e es)
    have hes : ∀ e2 ∈ es, refTruthy e2 = true := fun e2 h2 => h e2 (List.mem_cons_of_mem _ h2)
    simp [pendingIdx, he, ih hes]

theorem taskPositions_eq_nil (gs : List Group)
    (h : ∀ g ∈ gs, pendingIdx (selEntries g) = []) :
    taskPositions gs = [] := by
  induction gs with
  | nil => rfl
  | cons g gs ih =>
    have hg := h g (List.mem_cons_self g gs)
    have hgs : ∀ g2 ∈ gs, pendingIdx (selEntries g2) = [] :=
      fun g2 h2 => h g2 (List.mem_cons_of_mem _ h2)
    simp [taskPositions, hg, ih hgs]

theorem mem_selGroups_sub (c : Catalog) (g : Group) (h : g ∈ selGroups c) :
    g ∈ c.models.getD [] ++ c.modeles.getD [] := by
  obtain ⟨cm, cmd⟩ := c
  cases cmd with
  | some L => exact List.mem_append.mpr (Or.inr h)
  | none => exact List.mem_append.mpr (Or.inl h)

theorem mem_selEntries_sub (g : Group) (e : ModelEntry) (h : e ∈ selEntries g) :
    e ∈ g.models.getD [] ++ g.modeles.getD [] := by
  obtain ⟨gm, gmd⟩ := g
  cases gmd with
  | some M => exact List.mem_append.mpr (Or.inr h)
  | none => exact List.mem_append.mpr (Or.inl h)

theorem worklist_eq_nil (c : Catalog) (hsat : ∀ e ∈ allEntries c, refTruthy e = true) :
    worklistPositions c = [] := by
  apply taskPositions_eq_nil
  intro g hg
  apply pendingIdx_eq_nil
  intro e he
  apply hsat
  exact List.mem_bind.mpr ⟨g, mem_selGroups_sub c g hg, mem_selEntries_sub g e he⟩

theorem pendingIdx_nodup (es : List ModelEntry) : (pendingIdx es).Nodup := by
  induction es with
  | nil => exact List.nodup_nil
  | cons e es ih =>
    have hmap : ((pendingIdx es).map (fun i => i + 1)).Nodup :=
      ih.map (fun a b h => by omega)
    by_cases he : refTruthy e
    · simpa [pendingIdx, he] using hmap
    · simp only [pendingIdx, he, Bool.false_eq_true, if_neg, not_false_iff]
      refine List.nodup_cons.mpr ⟨?_, hmap⟩
      intro h0
      obtain ⟨j, _, hj⟩ := List.mem_map.mp h0
      omega

theorem taskPositions_nodup (gs : List Group) : (taskPositions gs).Nodup := by
  induction gs with
  | nil => exact List.nodup_nil
  | cons g gs ih =>
    refine List.nodup_append.mpr ⟨?_, ?_, ?_⟩
    · exact (pendingIdx_nodup _).map (fun a b h => by
        simpa using congrArg Prod.snd h)
    · exact ih.map (fun a b h => by
        have h1 := congrArg Prod.fst h
        have h2 := congrArg Prod.snd h
        simp only at h1 h2
        exact Prod.ext_iff.mpr ⟨by omega, h2⟩)
    · intro x hx1 hx2
      obtain ⟨ei, _, rfl⟩ := List.mem_map.mp hx1
      obtain ⟨q, _, hq⟩ := List.mem_map.mp hx2
      have := congrArg Prod.fst hq
      simp at this

/-- C1: when an entry's transcription succeeds with non-empty text, the
engine sets that entry's `ref_text` in the in-memory catalog and
immediately saves the entire catalog (the durability commit point,
modelled as the on-disk state becoming the in-memory one) before
processing the next worklist entry; hence after every successful entry
update the on-disk catalog equals the in-memory catalog and so reflects
that entry and all earlier committed entries. -/
theorem c1_commit_then_save (env : Env) (mem disk : Catalog) (p : Pos) (ps : List Pos)
    (t : String) (h : stepOf env mem p = StepResult.committed t) :
    t ≠ "" ∧
    loop env (p :: ps) mem disk =
      ⟨⟨p, StepResult.committed t, mem, updateAt mem p t, updateAt mem p t⟩ ::
        (loop env ps (updateAt mem p t) (updateAt mem p t)).trace,
        (loop env ps (updateAt mem p t) (updateAt mem p t)).mem,
        (loop env ps (updateAt mem p t) (updateAt mem p t)).disk,
        (loop env ps (updateAt mem p t) (updateAt mem p t)).interrupted⟩ ∧
    (∀ e, entryAt mem p = some e →
      entryAt (updateAt mem p t) p = some { e with ref_text := some t }) ∧
    (∀ (env2 : Env) (c2 : Catalog) (r : IterRecord) (t2 : String),
      r ∈ (run env2 c2).trace → r.res = StepResult.committed t2 →
      r.diskAfter = r.memAfter ∧ r.memAfter = updateAt r.memBefore r.pos t2) :=
  ⟨(stepOf_committed env mem p t h).1, loop_cons_committed env p ps mem disk t h,
    fun e he => entryAt_updateAt_eq mem p t e he,
    fun env2 _c2 r t2 hr hres => loop_commit_save env2 _ _ _ r t2 hr hres⟩

/-- Witness for C1: the concrete one-entry catalog commits `"hola"` and
the loop saves the updated catalog before continuing. -/
theorem c1_witness :
    stepOf c1env c1cat (0, 0) = StepResult.committed "hola" ∧
    loop c1env [(0, 0)] c1cat c1cat =
      ⟨⟨(0, 0), StepResult.committed "hola", c1cat, updateAt c1cat (0, 0) "hola",
          updateAt c1cat (0, 0) "hola"⟩ ::
        (loop c1env [] (updateAt c1cat (0, 0) "hola") (updateAt c1cat (0, 0) "hola")).trace,
        (loop c1env [] (updateAt c1cat (0, 0) "hola") (updateAt c1cat (0, 0) "hola")).mem,
        (loop c1env [] (updateAt c1cat (0, 0) "hola") (updateAt c1cat (0, 0) "hola")).disk,
        (loop c1env [] (updateAt c1cat (0, 0) "hola")
          (updateAt c1cat (0, 0) "hola")).interrupted⟩ :=
  ⟨by decide, (c1_commit_then_save c1env c1cat c1cat (0, 0) [] "hola" (by decide)).2.1⟩

/-- C2 counterexample: in a catalog where both top-level spellings are
present, the pending entry `c2entA`, reachable under the `models`
spelling, does NOT appear in the worklist — enumeration does not walk
both synonym keys. -/
theorem c2_counterexample :
    refTruthy c2entA = false ∧ reachableEither c2both c2entA ∧
    c2entA ∉ tasksOf c2both ∧ tasksOf c2both = [c2entB] :=
  ⟨rfl, ⟨[c2grpA], c2grpA, [c2entA], Or.inl rfl, by decide, Or.inl rfl, by decide⟩,
    by decide, by decide⟩

/-- C2 (amended): enumeration selects exactly one spelling per nesting
level — `modeles` when present, otherwise `models` — so for every catalog
in which at most one of the two spellings is present at the top level and
inside each group, every pending entry reachable under either spelling at
either nesting level appears in the worklist (which lists the pending
entries of the selected keys in document order). -/
theorem c2_amended_enumeration (c : Catalog) (e : ModelEntry)
    (h1 : c.models = none ∨ c.modeles = none)
    (h2 : ∀ g ∈ c.models.getD [] ++ c.modeles.getD [], g.models = none ∨ g.modeles = none)
    (hr : reachableEither c e) (hp : refTruthy e = false) :
    e ∈ tasksOf c := by
  obtain ⟨L, g, M, hL, hgL, hM, heM⟩ := hr
  have hgsel : g ∈ selGroups c := by
    rcases hL with hmod | hmd
    · rcases h1 with h | h
      · rw [h] at hmod; cases hmod
      · have hsel : selGroups c = L := by simp [selGroups, h, hmod]
        rw [hsel]; exact hgL
    · have hsel : selGroups c = L := by simp [selGroups, hmd]
      rw [hsel]; exact hgL
  have hgcat : g ∈ c.models.getD [] ++ c.modeles.getD [] := by
    rcases hL with hmod | hmd
    · exact List.mem_append.mpr (Or.inl (by rw [hmod]; exact hgL))
    · exact List.mem_append.mpr (Or.inr (by rw [hmd]; exact hgL))
  have hesel : e ∈ selEntries g := by
    rcases hM with hmodg | hmdg
    · rcases h2 g hgcat with h | h
      · rw [h] at hmodg; cases hmodg
      · have hsel : selEntries g = M := by simp [selEntries, h, hmodg]
        rw [hsel]; exact heM
    · have hsel : selEntries g = M := by simp [selEntries, hmdg]
      rw [hsel]; exact heM
  unfold tasksOf
  exact List.mem_bind.mpr ⟨g, hgsel, List.mem_filter.mpr ⟨hesel, by simp [hp]⟩⟩

/-- Witness for the amended C2: on a single-spelling catalog the pending
entry reachable under `models` is enumerated. -/
theorem c2_amended_witness : c2entA ∈ tasksOf c2only :=
  c2_amended_enumeration c2only c2entA (Or.inr rfl) (by decide)
    ⟨[c2grpA], c2grpA, [c2entA], Or.inl rfl, by decide, Or.inl rfl, by decide⟩ rfl

/-- C3: running the engine on a catalog whose entries all carry non-empty
`ref_text` performs no mutation and no save; moreover an entry with
non-empty `ref_text` is never passed to transcription (its processing
result is the skip pair for every environment, so it does not depend on
the filesystem or the model), and a run never removes or overwrites a
non-empty `ref_text`. -/
theorem c3_idempotent_noop (env : Env) (c : Catalog)
    (hsat : ∀ e ∈ allEntries c, refTruthy e = true) :
    run env c = ⟨[], c, c, false⟩ ∧
    savesOf (run env c) = [] ∧
    (∀ (env2 : Env) (e : ModelEntry), refTruthy e = true →
      process_single_model env2 e = ProcResult.ok false none) ∧
    (∀ (env2 : Env) (c2 : Catalog) (p : Pos) (e : ModelEntry),
      entryAt c2 p = some e → refTruthy e = true →
      entryAt (run env2 c2).mem p = some e) := by
  have hnil := worklist_eq_nil c hsat
  refine ⟨?_, ?_, ?_, ?_⟩
  · unfold run
    rw [hnil]
    rfl
  · unfold run
    rw [hnil]
    rfl
  · intro env2 e he
    simp [process_single_model, he]
  · intro env2 c2 p e hent he
    have hnot : p ∉ worklistPositions c2 := by
      intro hmem
      obtain ⟨e2, h1, h2⟩ := worklist_pending c2 p hmem
      rw [hent] at h1
      injection h1 with h1
      rw [← h1, he] at h2
      cases h2
    unfold run
    rw [loop_frozen env2 p _ c2 c2 hnot, hent]

/-- Witness for C3: the fully satisfied catalog runs as a pure no-op. -/
theorem c3_witness : run c3env c3cat = ⟨[], c3cat, c3cat, false⟩ :=
  (c3_idempotent_noop c3env c3cat (by decide)).1

/-- C4: a failing worklist entry (missing `file` attribute, unresolvable
audio path, transcription error, or empty output) leaves the in-memory
and on-disk catalogs untouched by its iteration and the loop continues
with the remaining entries; concretely, on the catalog holding a
broken-asset entry followed by a valid one, exactly the second entry
acquires `ref_text`, one save occurs, both entries are visited, and the
run does not abort. -/
theorem c4_per_entry_isolation (env : Env) (mem disk : Catalog) (p : Pos) (ps : List Pos)
    (h : stepOf env mem p = StepResult.skipped) :
    loop env (p :: ps) mem disk =
      ⟨⟨p, StepResult.skipped, mem, mem, disk⟩ :: (loop env ps mem disk).trace,
        (loop env ps mem disk).mem, (loop env ps mem disk).disk,
        (loop env ps mem disk).interrupted⟩ ∧
    entryAt (run c4env c4cat).mem (0, 0) = some c4bad ∧
    entryAt (run c4env c4cat).mem (0, 1) = some { c4good with ref_text := some "hello" } ∧
    (run c4env c4cat).interrupted = false ∧
    (run c4env c4cat).trace.length = 2 ∧
    savesOf (run c4env c4cat) = [updateAt c4cat (0, 1) "hello"] :=
  ⟨loop_cons_skipped env p ps mem disk h, by decide, by decide, by decide, by decide,
    by decide⟩

/-- Witness for C4: the broken-asset entry's iteration is a skip that
changes nothing and hands over to the next entry. -/
theorem c4_witness :
    loop c4env [(0, 0), (0, 1)] c4cat c4cat =
      ⟨⟨(0, 0), StepResult.skipped, c4cat, c4cat, c4cat⟩ ::
        (loop c4env [(0, 1)] c4cat c4cat).trace,
        (loop c4env [(0, 1)] c4cat c4cat).mem, (loop c4env [(0, 1)] c4cat c4cat).disk,
        (loop c4env [(0, 1)] c4cat c4cat).interrupted⟩ :=
  (c4_per_entry_isolation c4env c4cat c4cat (0, 0) [(0, 1)] (by decide)).1

/-- C5: a `KeyboardInterrupt` arriving while an entry is being processed
stops the worklist walk at once (the remaining entries are not visited),
performs exactly one final save of the catalog in its current in-memory
state, and terminates the run as interrupted; the in-memory catalog is
returned unchanged, so prior commits remain in the saved state and the
in-flight entry's `ref_text` stays unset. -/
theorem c5_interrupt_saves_once (env : Env) (mem disk : Catalog) (p : Pos) (ps : List Pos)
    (h : stepOf env mem p = StepResult.interrupted) :
    loop env (p :: ps) mem disk =
      ⟨[⟨p, StepResult.interrupted, mem, mem, mem⟩], mem, mem, true⟩ ∧
    savesOf (loop env (p :: ps) mem disk) = [mem] ∧
    (∀ e, entryAt mem p = some e → entryAt (loop env (p :: ps) mem disk).mem p = some e) := by
  have heq := loop_cons_interrupted env p ps mem disk h
  refine ⟨heq, ?_, ?_⟩
  · rw [heq]; rfl
  · intro e he
    rw [heq]
    exact he

/-- Witness for C5: the interrupting environment stops the one-entry
worklist with a single final save. -/
theorem c5_witness :
    loop c5env [(0, 0)] c5cat c5cat =
      ⟨[⟨(0, 0), StepResult.interrupted, c5cat, c5cat, c5cat⟩], c5cat, c5cat, true⟩ :=
  (c5_interrupt_saves_once c5env c5cat c5cat (0, 0) [] (by decide)).1

/-- C6: a transcription whose underlying model output is empty or
whitespace-only after trimming is treated as a failure: the entry's
processing returns the not-updated pair, so its loop iteration is a skip
— no `ref_text` is written, no save occurs for that entry, and the entry
remains pending. -/
theorem c6_whitespace_is_failure (env : Env) (e : ModelEntry) (rel raw : String)
    (hfile : e.file = some rel) (hrel : rel ≠ "") (hpend : refTruthy e = false)
    (hex : env.fileExists (resolve_audio_path env rel) = true)
    (hw : env.whisperTranscribe (resolve_audio_path env rel) (effLang e.language)
      = WhisperOutcome.ok raw)
    (hstrip : pyStrip raw = "") :
    process_single_model env e = ProcResult.ok false none ∧
    (∀ (mem : Catalog) (p : Pos), entryAt mem p = some e →
      stepOf env mem p = StepResult.skipped) := by
  have hproc : process_single_model env e = ProcResult.ok false none := by
    simp [process_single_model, hpend, hfile, hrel, transcribe_audio, hex, hw, hstrip]
  refine ⟨hproc, fun mem p hent => ?_⟩
  unfold stepOf processTask
  simp only [hent, hproc]

/-- Witness for C6: a whitespace-only model output on a concrete entry
yields the not-updated processing result. -/
theorem c6_witness : process_single_model c6env c6ent = ProcResult.ok false none :=
  (c6_whitespace_is_failure c6env c6ent "models/w.wav" "  \t " rfl (by decide) rfl
    (by decide) rfl (by decide)).1

/-- C7: path resolution uses the joined primary location whenever it
exists (the fallback never triggers then); only when it is missing and
the declared path contains the `models/` token (or, failing that test,
the `modeles/` token) is the other token substituted, and the alternate
location is used exactly when it exists; concretely `models/x.wav` with
only `modeles/x.wav` on disk resolves to the alternate path. -/
theorem c7_fallback_resolution (env : Env) (rel : String) :
    (env.fileExists (pyJoin env.base rel) = true →
      resolve_audio_path env rel = pyJoin env.base rel) ∧
    (env.fileExists (pyJoin env.base rel) = false → strContains rel "models/" = true →
      resolve_audio_path env rel =
        if env.fileExists (pyJoin env.base (pyReplace rel "models/" "modeles/"))
        then pyJoin env.base (pyReplace rel "models/" "modeles/")
        else pyJoin env.base rel) ∧
    (env.fileExists (pyJoin env.base rel) = false → strContains rel "models/" = false →
      strContains rel "modeles/" = true →
      resolve_audio_path env rel =
        if env.fileExists (pyJoin env.base (pyReplace rel "modeles/" "models/"))
        then pyJoin env.base (pyReplace rel "modeles/" "models/")
        else pyJoin env.base rel) ∧
    (env.fileExists (pyJoin env.base rel) = false → strContains rel "models/" = false →
      strContains rel "modeles/" = false →
      resolve_audio_path env rel = pyJoin env.base rel) ∧
    resolve_audio_path c7env "models/x.wav" = "/repo/modeles/x.wav" := by
  refine ⟨?_, ?_, ?_, ?_, by decide⟩
  · intro h1; simp [resolve_audio_path, h1]
  · intro h1 h2; simp [resolve_audio_path, h1, h2]
  · intro h1 h2 h3; simp [resolve_audio_path, h1, h2, h3]
  · intro h1 h2 h3; simp [resolve_audio_path, h1, h2, h3]

/-- Witness for C7: the concrete fallback case, with the alternate
location's existence deciding the result. -/
theorem c7_witness :
    resolve_audio_path c7env "models/x.wav" =
      if c7env.fileExists (pyJoin c7env.base (pyReplace "models/x.wav" "models/" "modeles/"))
      then pyJoin c7env.base (pyReplace "models/x.wav" "models/" "modeles/")
      else pyJoin c7env.base "models/x.wav" :=
  (c7_fallback_resolution c7env "models/x.wav").2.1 (by decide) (by decide)

/-- C8: a run writes nothing but `ref_text`: the final in-memory catalog
with every `ref_text` erased equals the original catalog with every
`ref_text` erased (so the group structure and all `name`, `file`,
`language` fields are identical before and after the run), each entry's
`name`, `file` and `language` are preserved positionally, and each
position is committed (its `ref_text` written) at most once per run. -/
theorem c8_frame_only_ref_text (env : Env) (c : Catalog) :
    eraseRefC (run env c).mem = eraseRefC c ∧
    (∀ p : Pos, commitCount (run env c).trace p ≤ 1) ∧
    (∀ (p : Pos) (e e2 : ModelEntry), entryAt c p = some e →
      entryAt (run env c).mem p = some e2 →
      e2.name = e.name ∧ e2.file = e.file ∧ e2.language = e.language) := by
  have herase : eraseRefC (run env c).mem = eraseRefC c := loop_eraseRef env _ c c
  refine ⟨herase, ?_, ?_⟩
  · intro p
    exact loop_commitCount_le_one env p _ c c (taskPositions_nodup _)
  · intro p e e2 h1 h2
    have h3 := entryAt_eraseRefC (run env c).mem p
    rw [herase, entryAt_eraseRefC c p, h1, h2] at h3
    simp only [Option.map_some'] at h3
    injection h3 with h4
    have h5 := congrArg ModelEntry.name h4.symm
    have h6 := congrArg ModelEntry.file h4.symm
    have h7 := congrArg ModelEntry.language h4.symm
    exact ⟨h5, h6, h7⟩

/-- Witness for C8: the committed entry of the concrete run keeps its
`name`, `file` and `language`. -/
theorem c8_witness :
    c8entDone.name = c8ent.name ∧ c8entDone.file = c8ent.file ∧
    c8entDone.language = c8ent.language :=
  (c8_frame_only_ref_text c8env c8cat).2.2 (0, 0) c8ent c8entDone (by decide) (by decide)

/-- C9: when both synonym keys are present at a level, only `modeles` is
read — `selGroups` and `selEntries` return the `modeles` value whenever
it is present — and in the concrete catalog with both keys at both
levels, only the entry under `modeles` is enumerated while the pending
entries under `models` (top level and nested) are silently ignored. -/
theorem c9_modeles_shadows_models :
    (∀ (c : Catalog) (L : List Group), c.modeles = some L → selGroups c = L) ∧
    (∀ (g : Group) (M : List ModelEntry), g.modeles = some M → selEntries g = M) ∧
    tasksOf c9cat = [c9entB] ∧
    refTruthy c9entA = false ∧ c9entA ∉ tasksOf c9cat ∧
    refTruthy c9entC = false ∧ c9entC ∉ tasksOf c9cat := by
  refine ⟨?_, ?_, by decide, rfl, by decide, rfl, by decide⟩
  · intro c L h
    unfold selGroups
    rw [h]
  · intro g M h
    unfold selEntries
    rw [h]

/-- Witness for C9: the concrete both-keys catalog selects its `modeles`
group list. -/
theorem c9_witness : selGroups c9cat = [c9grpBoth] :=
  c9_modeles_shadows_models.1 c9cat [c9grpBoth] rfl

/-- C10: the fallback substitutes every occurrence of the token anywhere
in the declared relative path (Python `str.replace` semantics): the
re-checked alternate location is always built with `pyReplace`, and the
declared path `models/models/a.wav` whose primary location is missing is
rewritten to `modeles/modeles/a.wav`, both occurrences included. -/
theorem c10_replace_every_occurrence :
    pyReplace "models/models/a.wav" "models/" "modeles/" = "modeles/modeles/a.wav" ∧
    resolve_audio_path c10env "models/models/a.wav" = "/repo/modeles/modeles/a.wav" ∧
    (∀ (env : Env) (rel : String),
      env.fileExists (pyJoin env.base rel) = false → strContains rel "models/" = true →
      env.fileExists (pyJoin env.base (pyReplace rel "models/" "modeles/")) = true →
      resolve_audio_path env rel = pyJoin env.base (pyReplace rel "models/" "modeles/")) := by
  refine ⟨by decide, by decide, ?_⟩
  intro env rel h1 h2 h3
  simp [resolve_audio_path, h1, h2, h3]

/-- Witness for C10: the mid-path occurrence is substituted as well and
the alternate location is used. -/
theorem c10_witness :
    resolve_audio_path c10env "models/models/a.wav" =
      pyJoin c10env.base (pyReplace "models/models/a.wav" "models/" "modeles/") :=
  c10_replace_every_occurrence.2.2 c10env "models/models/a.wav" (by decide) (by decide)
    (by decide)

end RefTextBatch
